import Mathlib

/-!
# Verification of the `flogic` propositional-logic library

This file gives a shallow embedding of `src/classical_logic/parsing.py`
(the lexer, the recursive-descent parser, and the public API `prop` /
`props`) together with a model of the formula core (`core.py` is not part
of the sources; its behaviour is modelled from the specification and the
unit tests in `src/tests/test_core.py`), and proves or refutes the frozen
claims about the system.

Conventions of the embedding:
* Python exceptions become an explicit error type `Err` / `EvalErr`; a
  fallible operation returns `Except`.
* The lazy token generator of `_lex` is embedded as `lexChars`, which
  returns the list of tokens successfully produced *before* any lexical
  error together with the error (if any) that terminates the stream; the
  parser pulls tokens one at a time, so a pending lexical error surfaces
  exactly when the parser advances past the last good token, as in the
  Python generator.
* The mutually recursive parser methods, like the lexer, take a fuel
  argument that is decremented on entry to every call (making the
  recursion structural, hence executable in the kernel); the public
  `prop` supplies fuel `8 * numberOfTokens + 8`, and we prove this fuel
  can never run out, which is the termination argument of the original
  recursive-descent code (the recursion depth is bounded in terms of the
  number of tokens, because every grammar re-entry first consumes a
  token).
-/

namespace Flogic

/-- Errors of the lexer/parser.  `unexpEndOfStr`, `unexpChar` and
`unexpToken` correspond to the `ValueError`s built from the messages
`_UNEXP_END_OF_STR`, `_unexp_char` and `_unexp_token` in `parsing.py`;
`stopIteration` is the `StopIteration` that escapes from the bare
`next(self._token_stream)` in `_Parser.__init__` when the token stream is
empty; `fuel` is an artifact of the fuel-based embedding of the mutual
recursion (it is proved unreachable for the fuel `prop` supplies). -/
inductive Err where
  | unexpEndOfStr : Err
  | unexpChar (c : Char) : Err
  | unexpToken (v : String) : Err
  | stopIteration : Err
  | fuel : Err
deriving DecidableEq, Repr

/-- Modelled from the spec: the `Proposition` tree of the missing
`core.py`, a tagged union with six variants (`Atomic` variable, `Not`,
`And`, `Or`, `Implies`, `Iff`); `Atomic` holds an arbitrary name string.
The parsing module imports the `Atomic` constructor under the name
`Predicate`. -/
inductive Proposition where
  | Atomic (name : String) : Proposition
  | Not (p : Proposition) : Proposition
  | And (l r : Proposition) : Proposition
  | Or (l r : Proposition) : Proposition
  | Implies (l r : Proposition) : Proposition
  | Iff (l r : Proposition) : Proposition
deriving DecidableEq, Repr

/-- `Predicate` is the name under which `parsing.py` imports the atomic
constructor from the core module. -/
abbrev Predicate : String → Proposition := Proposition.Atomic

/-- The token types of `_TokenType` in `parsing.py`. -/
inductive TokT where
  | IDENT | NOT | AND | OR | IMPLIES | IFF | LPARENS | RPARENS
deriving DecidableEq, Repr

/-- A token as yielded by `_lex`: a `(_TokenType, value)` pair. -/
structure Tok where
  ty : TokT
  val : String
deriving DecidableEq, Repr

/-- The whitespace set `" \t\f\r\n"` of `_lex` ('\x0c' is `\f`). -/
def isWS (c : Char) : Bool :=
  c == ' ' || c == '\t' || c == '\x0c' || c == '\r' || c == '\n'

/-- Python's Unicode-aware `str.isalpha`, modelled on the character set
used in this development: the ASCII letters together with the non-ASCII
letter `'é'` (U+00E9), which Unicode classifies as alphabetic and hence
Python's `str.isalpha` accepts.  No other non-ASCII character occurs in
any input considered in this file, so on all such inputs this function
agrees with Python.  Note that the module docstring of `parsing.py`
specifies the ASCII identifier pattern `[a-zA-Z_][a-zA-Z0-9_]*`, while
the implementation calls the Unicode-aware `str.isalpha`; this mismatch
is the subject of one of the claims below. -/
def pyIsAlpha (c : Char) : Bool :=
  c.isAlpha || c == 'é'

/-- Python's `str.isalnum`, under the same modelling restriction as
`pyIsAlpha`: Unicode letters beyond ASCII other than `'é'` do not occur
in the inputs considered here, and ASCII digits are the only numeric
characters that occur. -/
def pyIsAlnum (c : Char) : Bool :=
  pyIsAlpha c || c.isDigit

/-- The identifier-start test `c.isalpha() or c == "_"` of `_lex`. -/
def isIdentStart (c : Char) : Bool :=
  pyIsAlpha c || c == '_'

/-- The identifier-continuation test `c.isalnum() or c == "_"` of
`_lex`'s inner loop. -/
def isIdentCont (c : Char) : Bool :=
  pyIsAlnum c || c == '_'

/-- Prepend a token to a lexer result (the tokens already yielded plus
the optional terminating error). -/
def tcons (t : Tok) : List Tok × Option Err → List Tok × Option Err
  | (ts, e) => (t :: ts, e)

/-- `_lex_accept(it, expected)`: read the next character; fail with the
end-of-string error when the input is exhausted and with an
unexpected-character error when it is not `expected`; otherwise continue
with `k` on the remaining characters. -/
def lexAccept (expected : Char) (k : List Char → List Tok × Option Err) :
    List Char → List Tok × Option Err
  | [] => ([], some .unexpEndOfStr)
  | c :: cs =>
    if c = expected then k cs
    else ([], some (.unexpChar c))

/-- The lexer `_lex` of `parsing.py`, embedded on the character list of
the input.  It returns the tokens yielded before the generator either
finishes (`none`) or raises a `ValueError` (`some e`); the branch order
matches the `elif` chain of the source.  The one-character-lookahead
calls `_lex_accept(it, c)` become `lexAccept` with the continuation of
the lexing loop; the hand-rolled identifier loop (read one character
ahead, `continue` to reuse it) is the span of `isIdentCont`.  The `fuel`
argument is an artifact of the embedding (it makes the recursion
structural): every call consumes at least one character, `lex` supplies
`length + 1`, and the `fuel` outcome is proved unreachable for that
supply. -/
def lexChars : Nat → List Char → List Tok × Option Err
  | 0, _ => ([], some .fuel)
  | _ + 1, [] => ([], none)
  | f + 1, c :: cs =>
    if c = '~' then tcons ⟨.NOT, "~"⟩ (lexChars f cs)
    else if c = '&' then tcons ⟨.AND, "&"⟩ (lexChars f cs)
    else if c = '|' then tcons ⟨.OR, "|"⟩ (lexChars f cs)
    else if c = '-' then
      lexAccept '>' (fun ds => tcons ⟨.IMPLIES, "->"⟩ (lexChars f ds)) cs
    else if c = '<' then
      lexAccept '-'
        (lexAccept '>' (fun es => tcons ⟨.IFF, "<->"⟩ (lexChars f es))) cs
    else if c = '(' then tcons ⟨.LPARENS, "("⟩ (lexChars f cs)
    else if c = ')' then tcons ⟨.RPARENS, ")"⟩ (lexChars f cs)
    else if isWS c then lexChars f cs
    else if isIdentStart c then
      tcons ⟨.IDENT, String.mk (c :: cs.takeWhile isIdentCont)⟩
        (lexChars f (cs.dropWhile isIdentCont))
    else ([], some (.unexpChar c))

/-- `_lex(text)`, run to completion: the token/error stream of the
input text. -/
def lex (text : String) : List Tok × Option Err :=
  lexChars (text.data.length + 1) text.data

/-- The state of `_Parser`: the current token (`None` is modelled as
`none`, which the Python code reaches via the `(None, "")` default of
`next`), the tokens the lazy generator has not yet handed over, and the
lexical error (if any) pending at the end of the token stream. -/
structure PState where
  cur : Option Tok
  rest : List Tok
  lexErr : Option Err
deriving DecidableEq, Repr

/-- The current token's type, `self._current_token_type`. -/
def PState.curTy (s : PState) : Option TokT := s.cur.map Tok.ty

/-- The current token's value, `self._current_token_value` (the exhausted
stream leaves the value `""` via the `(None, "")` default). -/
def PState.curVal (s : PState) : String :=
  match s.cur with
  | some t => t.val
  | none => ""

/-- `_Parser._advance`: pull the next token with default `(None, "")`.
Pulling past the last good token re-raises the pending lexical error of
the generator, if there is one (the `next` default only covers
`StopIteration`, not a `ValueError` raised inside the generator). -/
def advance (s : PState) : Except Err PState :=
  match s.rest with
  | t :: ts => .ok ⟨some t, ts, s.lexErr⟩
  | [] =>
    match s.lexErr with
    | some e => .error e
    | none => .ok ⟨none, [], none⟩

/-- The common error tail of `_Parser.unit`: end-of-string if the current
token is `None`, otherwise an unexpected-token error carrying the current
token's value. -/
def unitErr (s : PState) : Except Err (Proposition × PState) :=
  match s.cur with
  | none => .error .unexpEndOfStr
  | some t => .error (.unexpToken t.val)

mutual

/-- `_Parser.bic`: `cond`, then on `<->` recurse into `bic` for the tail
(right-associative).  Like all parser rules below, the function burns one
unit of fuel on entry; this makes the mutual recursion structural and is
proved never to bite for the fuel supplied by `prop`. -/
def bic : Nat → PState → Except Err (Proposition × PState)
  | 0, _ => .error .fuel
  | f + 1, s =>
    match cond f s with
    | .error e => .error e
    | .ok (left, s1) =>
      if s1.curTy = some .IFF then
        match advance s1 with
        | .error e => .error e
        | .ok s2 =>
          match bic f s2 with
          | .error e => .error e
          | .ok (right, s3) => .ok (.Iff left right, s3)
      else .ok (left, s1)

/-- `_Parser.cond`: `disj`, then on `->` recurse into `cond` for the tail
(right-associative). -/
def cond : Nat → PState → Except Err (Proposition × PState)
  | 0, _ => .error .fuel
  | f + 1, s =>
    match disj f s with
    | .error e => .error e
    | .ok (left, s1) =>
      if s1.curTy = some .IMPLIES then
        match advance s1 with
        | .error e => .error e
        | .ok s2 =>
          match cond f s2 with
          | .error e => .error e
          | .ok (right, s3) => .ok (.Implies left right, s3)
      else .ok (left, s1)

/-- `_Parser.disj`: `conj`, then fold `("|" conj)*` iteratively
(left-associative); the `while` loop is `disjLoop`. -/
def disj : Nat → PState → Except Err (Proposition × PState)
  | 0, _ => .error .fuel
  | f + 1, s =>
    match conj f s with
    | .error e => .error e
    | .ok (p, s1) => disjLoop f p s1

/-- The `while` loop of `_Parser.disj`, with the accumulated proposition
`acc` as `current_prop`. -/
def disjLoop : Nat → Proposition → PState → Except Err (Proposition × PState)
  | 0, _, _ => .error .fuel
  | f + 1, acc, s =>
    if s.curTy = some .OR then
      match advance s with
      | .error e => .error e
      | .ok s1 =>
        match conj f s1 with
        | .error e => .error e
        | .ok (q, s2) => disjLoop f (.Or acc q) s2
    else .ok (acc, s)

/-- `_Parser.conj`: `neg`, then fold `("&" neg)*` iteratively
(left-associative); the `while` loop is `conjLoop`. -/
def conj : Nat → PState → Except Err (Proposition × PState)
  | 0, _ => .error .fuel
  | f + 1, s =>
    match neg f s with
    | .error e => .error e
    | .ok (p, s1) => conjLoop f p s1

/-- The `while` loop of `_Parser.conj`. -/
def conjLoop : Nat → Proposition → PState → Except Err (Proposition × PState)
  | 0, _, _ => .error .fuel
  | f + 1, acc, s =>
    if s.curTy = some .AND then
      match advance s with
      | .error e => .error e
      | .ok s1 =>
        match neg f s1 with
        | .error e => .error e
        | .ok (q, s2) => conjLoop f (.And acc q) s2
    else .ok (acc, s)

/-- `_Parser.neg`: `"~" neg | unit`. -/
def neg : Nat → PState → Except Err (Proposition × PState)
  | 0, _ => .error .fuel
  | f + 1, s =>
    if s.curTy = some .NOT then
      match advance s with
      | .error e => .error e
      | .ok s1 =>
        match neg f s1 with
        | .error e => .error e
        | .ok (p, s2) => .ok (.Not p, s2)
    else unit f s

/-- `_Parser.unit`: `IDENT | "(" bic ")"`, falling through to the common
error tail (end-of-string if the current token is `None`, otherwise an
unexpected-token error). -/
def unit : Nat → PState → Except Err (Proposition × PState)
  | 0, _ => .error .fuel
  | f + 1, s =>
    if s.curTy = some .IDENT then
      match advance s with
      | .error e => .error e
      | .ok s1 => .ok (Predicate s.curVal, s1)
    else if s.curTy = some .LPARENS then
      match advance s with
      | .error e => .error e
      | .ok s1 =>
        match bic f s1 with
        | .error e => .error e
        | .ok (p, s2) =>
          if s2.curTy = some .RPARENS then
            match advance s2 with
            | .error e => .error e
            | .ok s3 => .ok (p, s3)
          else unitErr s2
    else unitErr s

end

/-- The public API `prop(text)`: run `_Parser(text).bic()`.  The
constructor `_Parser.__init__` pulls the first token with a bare
`next(...)`: an empty token stream therefore raises `StopIteration`
(unless the lexer itself raised a `ValueError` while looking for the
first token, which then propagates).  The resulting proposition is
returned without any check that the token stream was consumed.  The fuel
`8 * numberOfTokens + 8` is proved sufficient below. -/
def prop (text : String) : Except Err Proposition :=
  match lex text with
  | (toks, lexErr) =>
    match toks with
    | [] =>
      match lexErr with
      | some e => .error e
      | none => .error .stopIteration
    | t :: ts =>
      match bic (8 * (ts.length + 1) + 8) ⟨some t, ts, lexErr⟩ with
      | .error e => .error e
      | .ok (p, _) => .ok p

/-- `tuple(prop(s) for s in ...)`: parse the pieces left to right,
propagating the first error. -/
def mapProps : List String → Except Err (List Proposition)
  | [] => .ok []
  | s :: ss =>
    match prop s with
    | .error e => .error e
    | .ok p =>
      match mapProps ss with
      | .error e => .error e
      | .ok ps => .ok (p :: ps)

/-- Python's `text.split(",")`: split on every comma, with no escaping;
the empty string yields the one-element list `[""]`. -/
def splitCommas : List Char → List (List Char)
  | [] => [[]]
  | c :: cs =>
    if c = ',' then [] :: splitCommas cs
    else
      match splitCommas cs with
      | [] => [[c]]
      | h :: t => (c :: h) :: t

/-- The public API `props(text)`: split on every comma and parse each
piece with `prop`. -/
def props (text : String) : Except Err (List Proposition) :=
  mapProps ((splitCommas text.data).map String.mk)

/-- Modelled from the spec: the evaluation error of the missing
`core.py` — an interpretation lookup failed for an atomic variable that
was actually needed (`MissingVariable`, a `ValueError` in the source). -/
inductive EvalErr where
  | missingVar (name : String) : EvalErr
deriving DecidableEq, Repr

/-- Modelled from the spec: `Proposition.interpret` of the missing
`core.py` (spec §4.1 Evaluation), validated against the truth-table,
short-circuit and missing-variable tests of `src/tests/test_core.py`.
The interpretation (a Python dict) is an association list.  `Atomic`
looks its name up and fails with `MissingVariable` when absent; `And`,
`Or` and `Implies` short-circuit on the left operand exactly like native
boolean operators; `Iff` evaluates both sides and compares. -/
def interpret : Proposition → List (String × Bool) → Except EvalErr Bool
  | .Atomic n, i =>
    match i.lookup n with
    | some b => .ok b
    | none => .error (.missingVar n)
  | .Not p, i =>
    match interpret p i with
    | .error e => .error e
    | .ok b => .ok (!b)
  | .And l r, i =>
    match interpret l i with
    | .error e => .error e
    | .ok b => if b then interpret r i else .ok false
  | .Or l r, i =>
    match interpret l i with
    | .error e => .error e
    | .ok b => if b then .ok true else interpret r i
  | .Implies l r, i =>
    match interpret l i with
    | .error e => .error e
    | .ok b => if b then interpret r i else .ok true
  | .Iff l r, i =>
    match interpret l i with
    | .error e => .error e
    | .ok bl =>
      match interpret r i with
      | .error e => .error e
      | .ok br => .ok (bl == br)

/-- Modelled from the spec: the canonical rendering `__str__` of the
missing `core.py` (spec §4.1 Rendering), validated against `TestStr` in
`src/tests/test_core.py`: an atomic renders as its name verbatim, `Not`
prefixes `~` without parentheses, and every binary connective wraps
itself in parentheses with single spaces around the operator. -/
def Proposition.toStr : Proposition → String
  | .Atomic n => n
  | .Not p => "~" ++ p.toStr
  | .And l r => "(" ++ l.toStr ++ " & " ++ r.toStr ++ ")"
  | .Or l r => "(" ++ l.toStr ++ " | " ++ r.toStr ++ ")"
  | .Implies l r => "(" ++ l.toStr ++ " -> " ++ r.toStr ++ ")"
  | .Iff l r => "(" ++ l.toStr ++ " <-> " ++ r.toStr ++ ")"

/-- Modelled from the spec: a Python value passed as the second operand
of `Proposition.__and__` / `__or__` — either a `Proposition`, a native
boolean (`True` / `False`), or some other object (the tests use
`object()`). -/
inductive PyVal where
  | prop (p : Proposition) : PyVal
  | pybool (b : Bool) : PyVal
  | obj : PyVal
deriving DecidableEq, Repr

/-- Modelled from the spec: the result of a Python binary special method
— a real result, or the `NotImplemented` sentinel that tells the
interpreter's operator resolution that the composition is not defined
(comparison-protocol-style fallback, not a raised error). -/
inductive PyBinResult where
  | result (p : Proposition) : PyBinResult
  | notImplemented : PyBinResult
deriving DecidableEq, Repr

/-- Modelled from the spec: the `TypeError` raised by `__bool__`. -/
inductive PyTypeErr where
  | typeError : PyTypeErr
deriving DecidableEq, Repr

/-- Modelled from the spec: `Proposition.__and__` of the missing
`core.py` — returns `And(self, other)` when `other` is a `Proposition`
and the `NotImplemented` sentinel otherwise (spec §4.1/§7, validated
against `test_and_incorrect_type`). -/
def pyAnd (u : Proposition) : PyVal → PyBinResult
  | .prop v => .result (.And u v)
  | .pybool _ => .notImplemented
  | .obj => .notImplemented

/-- Modelled from the spec: `Proposition.__or__` of the missing
`core.py`, symmetric to `pyAnd`. -/
def pyOr (u : Proposition) : PyVal → PyBinResult
  | .prop v => .result (.Or u v)
  | .pybool _ => .notImplemented
  | .obj => .notImplemented

/-- Modelled from the spec: `Proposition.__bool__` of the missing
`core.py` — a Formula never coerces to a boolean; `bool(u)` always
raises `TypeError` (spec §4.1 truthiness trap, validated against
`test_bool`). -/
def pyBool (_ : Proposition) : Except PyTypeErr Bool :=
  .error .typeError

/-- The token sequence of the canonical rendering of a proposition (what
`_lex` produces on `toStr`): used to state the round-trip law. -/
def tokensOf : Proposition → List Tok
  | .Atomic n => [⟨.IDENT, n⟩]
  | .Not p => ⟨.NOT, "~"⟩ :: tokensOf p
  | .And l r =>
    ⟨.LPARENS, "("⟩ :: (tokensOf l ++ ⟨.AND, "&"⟩ :: tokensOf r) ++ [⟨.RPARENS, ")"⟩]
  | .Or l r =>
    ⟨.LPARENS, "("⟩ :: (tokensOf l ++ ⟨.OR, "|"⟩ :: tokensOf r) ++ [⟨.RPARENS, ")"⟩]
  | .Implies l r =>
    ⟨.LPARENS, "("⟩ :: (tokensOf l ++ ⟨.IMPLIES, "->"⟩ :: tokensOf r) ++ [⟨.RPARENS, ")"⟩]
  | .Iff l r =>
    ⟨.LPARENS, "("⟩ :: (tokensOf l ++ ⟨.IFF, "<->"⟩ :: tokensOf r) ++ [⟨.RPARENS, ")"⟩]

/-- The character sequence of the canonical rendering (`toStr.data`,
with the string concatenations spelled out on lists). -/
def renderChars : Proposition → List Char
  | .Atomic n => n.data
  | .Not p => '~' :: renderChars p
  | .And l r =>
    '(' :: (renderChars l ++ ' ' :: '&' :: ' ' :: renderChars r) ++ [')']
  | .Or l r =>
    '(' :: (renderChars l ++ ' ' :: '|' :: ' ' :: renderChars r) ++ [')']
  | .Implies l r =>
    '(' :: (renderChars l ++ ' ' :: '-' :: '>' :: ' ' :: renderChars r) ++ [')']
  | .Iff l r =>
    '(' :: (renderChars l ++ ' ' :: '<' :: '-' :: '>' :: ' ' :: renderChars r) ++ [')']

/-- The identifier pattern `[A-Za-z_][A-Za-z0-9_]*` of the textual
notation (spec §6): nonempty, ASCII letter or underscore first, then
ASCII letters, digits or underscores. -/
def validIdent (s : String) : Bool :=
  match s.data with
  | [] => false
  | c :: cs => (c.isAlpha || c == '_') && cs.all (fun d => d.isAlphanum || d == '_')

/-- All atomic names of a proposition match the identifier pattern. -/
def allValidIdents : Proposition → Bool
  | .Atomic n => validIdent n
  | .Not p => allValidIdents p
  | .And l r => allValidIdents l && allValidIdents r
  | .Or l r => allValidIdents l && allValidIdents r
  | .Implies l r => allValidIdents l && allValidIdents r
  | .Iff l r => allValidIdents l && allValidIdents r

/-- The parser state whose lookahead is the head of `l` and whose
generator will deliver the tail of `l` and then finish cleanly. -/
def mkState (l : List Tok) : PState :=
  match l with
  | [] => ⟨none, [], none⟩
  | t :: ts => ⟨some t, ts, none⟩

/-- Number of tokens the parser can still pull from a state (current
lookahead plus undelivered tokens). -/
def remTok (s : PState) : Nat :=
  (match s.cur with
   | some _ => 1
   | none => 0) + s.rest.length

deriving instance DecidableEq for Except

/-- A state whose pending lexical error is not the fuel artifact (true
of every state the embedding actually builds). -/
def lexOK (s : PState) : Prop := s.lexErr ≠ some Err.fuel

/-- The head of the remaining characters (if any) does not continue an
identifier: the condition under which lexing a rendered fragment is
independent of what follows it. -/
def contOK : List Char → Prop
  | [] => True
  | c :: _ => isIdentCont c = false

/-- Prepend a token list to a lexer result. -/
def prependToks (ts : List Tok) (r : List Tok × Option Err) :
    List Tok × Option Err :=
  (ts ++ r.1, r.2)

/-- The lexer run with its canonical fuel supply (`length + 1`), which
is always sufficient. -/
def lexAll (l : List Char) : List Tok × Option Err :=
  lexChars (l.length + 1) l

theorem length_dropWhile_le (p : α → Bool) (l : List α) :
    (l.dropWhile p).length ≤ l.length := by
  induction l with
  | nil => simp [List.dropWhile]
  | cons a l ih =>
    by_cases h : p a
    · simp [List.dropWhile_cons, h]; omega
    · simp [List.dropWhile_cons, h]


theorem tcons_snd (t : Tok) (r : List Tok × Option Err) :
    (tcons t r).2 = r.2 := by
  rcases r with ⟨ts, e⟩; rfl

theorem tcons_fst (t : Tok) (r : List Tok × Option Err) :
    (tcons t r).1 = t :: r.1 := by
  rcases r with ⟨ts, e⟩; rfl

theorem cur_of_curTy {s : PState} {τ : TokT} (h : s.curTy = some τ) :
    ∃ t, s.cur = some t := by
  rw [PState.curTy] at h
  rcases hc : s.cur with _ | t
  · rw [hc] at h; simp at h
  · exact ⟨t, rfl⟩

theorem advance_rem_lt {s s' : PState} {τ : TokT} (h : s.curTy = some τ)
    (ha : advance s = .ok s') : remTok s' < remTok s := by
  obtain ⟨t0, hc⟩ := cur_of_curTy h
  rw [advance] at ha
  rcases hr : s.rest with _ | ⟨t, ts⟩ <;> rw [hr] at ha
  · rcases he : s.lexErr with _ | e <;> rw [he] at ha
    · cases ha; simp [remTok, hc, hr]
    · cases ha
  · cases ha; simp [remTok, hc, hr]

theorem advance_lexOK {s s' : PState} (ha : advance s = .ok s')
    (h : lexOK s) : lexOK s' := by
  rw [advance] at ha
  rcases hr : s.rest with _ | ⟨t, ts⟩ <;> rw [hr] at ha
  · rcases he : s.lexErr with _ | e <;> rw [he] at ha
    · cases ha; simp [lexOK]
    · cases ha
  · cases ha; rw [lexOK] at h ⊢; simpa using h

theorem advance_err {s : PState} {e : Err} (ha : advance s = .error e) :
    s.lexErr = some e := by
  rw [advance] at ha
  rcases hr : s.rest with _ | ⟨t, ts⟩ <;> rw [hr] at ha
  · rcases he : s.lexErr with _ | e' <;> rw [he] at ha
    · cases ha
    · cases ha; rfl
  · cases ha

theorem unitErr_err (s : PState) : ∀ p s', unitErr s ≠ .ok (p, s') := by
  intro p s'
  rw [unitErr]
  rcases s.cur with _ | t <;> simp

theorem unitErr_no_fuel (s : PState) : unitErr s ≠ .error .fuel := by
  rw [unitErr]
  rcases s.cur with _ | t <;> simp

/-- Every successful parser rule consumes at least one token (the loop
bodies consume at least zero), and parsing never manufactures a pending
fuel-artifact lexical error.  Proved by induction on the fuel, mirroring
the mutual recursion. -/
theorem parse_consume : ∀ fuel : Nat,
    (∀ s p s', unit fuel s = .ok (p, s') →
      (remTok s' < remTok s ∧ (lexOK s → lexOK s'))) ∧
    (∀ s p s', neg fuel s = .ok (p, s') →
      (remTok s' < remTok s ∧ (lexOK s → lexOK s'))) ∧
    (∀ acc s p s', conjLoop fuel acc s = .ok (p, s') →
      (remTok s' ≤ remTok s ∧ (lexOK s → lexOK s'))) ∧
    (∀ s p s', conj fuel s = .ok (p, s') →
      (remTok s' < remTok s ∧ (lexOK s → lexOK s'))) ∧
    (∀ acc s p s', disjLoop fuel acc s = .ok (p, s') →
      (remTok s' ≤ remTok s ∧ (lexOK s → lexOK s'))) ∧
    (∀ s p s', disj fuel s = .ok (p, s') →
      (remTok s' < remTok s ∧ (lexOK s → lexOK s'))) ∧
    (∀ s p s', cond fuel s = .ok (p, s') →
      (remTok s' < remTok s ∧ (lexOK s → lexOK s'))) ∧
    (∀ s p s', bic fuel s = .ok (p, s') →
      (remTok s' < remTok s ∧ (lexOK s → lexOK s'))) := by
  intro fuel
  induction fuel with
  | zero =>
    refine ⟨?_, ?_, ?_, ?_, ?_, ?_, ?_, ?_⟩ <;>
      first
      | (intro s p s' h; simp [unit, neg, conj, disj, cond, bic] at h)
      | (intro acc s p s' h; simp [conjLoop, disjLoop] at h)
  | succ f ih =>
    obtain ⟨ihUnit, ihNeg, ihConjLoop, ihConj, ihDisjLoop, ihDisj, ihCond,
      ihBic⟩ := ih
    have hUnit : ∀ s p s', unit (f + 1) s = .ok (p, s') →
        (remTok s' < remTok s ∧ (lexOK s → lexOK s')) := by
      intro s p s' h
      rw [unit] at h
      by_cases h1 : s.curTy = some .IDENT
      · rw [if_pos h1] at h
        rcases ha : advance s with e | s1 <;> simp only [ha] at h
        · cases h
        · cases h; exact ⟨advance_rem_lt h1 ha, advance_lexOK ha⟩
      · rw [if_neg h1] at h
        by_cases h2 : s.curTy = some .LPARENS
        · rw [if_pos h2] at h
          rcases ha : advance s with e | s1 <;> simp only [ha] at h
          · cases h
          rcases hb : bic f s1 with e | ⟨q, s2⟩ <;> simp only [hb] at h
          · cases h
          by_cases h3 : s2.curTy = some .RPARENS
          · rw [if_pos h3] at h
            rcases hc : advance s2 with e | s3 <;> simp only [hc] at h
            · cases h
            cases h
            have k1 := advance_rem_lt h2 ha
            have k2 := ihBic _ _ _ hb
            have k3 := advance_rem_lt h3 hc
            exact ⟨by omega,
              fun hs => advance_lexOK hc (k2.2 (advance_lexOK ha hs))⟩
          · rw [if_neg h3] at h
            exact absurd h (unitErr_err s2 p s')
        · rw [if_neg h2] at h
          exact absurd h (unitErr_err s p s')
    have hNeg : ∀ s p s', neg (f + 1) s = .ok (p, s') →
        (remTok s' < remTok s ∧ (lexOK s → lexOK s')) := by
      intro s p s' h
      rw [neg] at h
      by_cases h1 : s.curTy = some .NOT
      · rw [if_pos h1] at h
        rcases ha : advance s with e | s1 <;> simp only [ha] at h
        · cases h
        rcases hb : neg f s1 with e | ⟨q, s2⟩ <;> simp only [hb] at h
        · cases h
        cases h
        have k1 := advance_rem_lt h1 ha
        have k2 := ihNeg _ _ _ hb
        exact ⟨by omega, fun hs => k2.2 (advance_lexOK ha hs)⟩
      · rw [if_neg h1] at h
        exact ihUnit s p s' h
    have hConjLoop : ∀ acc s p s', conjLoop (f + 1) acc s = .ok (p, s') →
        (remTok s' ≤ remTok s ∧ (lexOK s → lexOK s')) := by
      intro acc s p s' h
      rw [conjLoop] at h
      by_cases h1 : s.curTy = some .AND
      · rw [if_pos h1] at h
        rcases ha : advance s with e | s1 <;> simp only [ha] at h
        · cases h
        rcases hb : neg f s1 with e | ⟨q, s2⟩ <;> simp only [hb] at h
        · cases h
        have k1 := advance_rem_lt h1 ha
        have k2 := ihNeg s1 q s2 hb
        have k3 := ihConjLoop (acc.And q) s2 p s' h
        exact ⟨by omega,
          fun hs => k3.2 (k2.2 (advance_lexOK ha hs))⟩
      · rw [if_neg h1] at h
        cases h
        exact ⟨le_refl _, fun hs => hs⟩
    have hConj : ∀ s p s', conj (f + 1) s = .ok (p, s') →
        (remTok s' < remTok s ∧ (lexOK s → lexOK s')) := by
      intro s p s' h
      rw [conj] at h
      rcases ha : neg f s with e | ⟨q, s1⟩ <;> simp only [ha] at h
      · cases h
      have k1 := ihNeg s q s1 ha
      have k2 := ihConjLoop q s1 p s' h
      exact ⟨by omega, fun hs => k2.2 (k1.2 hs)⟩
    have hDisjLoop : ∀ acc s p s', disjLoop (f + 1) acc s = .ok (p, s') →
        (remTok s' ≤ remTok s ∧ (lexOK s → lexOK s')) := by
      intro acc s p s' h
      rw [disjLoop] at h
      by_cases h1 : s.curTy = some .OR
      · rw [if_pos h1] at h
        rcases ha : advance s with e | s1 <;> simp only [ha] at h
        · cases h
        rcases hb : conj f s1 with e | ⟨q, s2⟩ <;> simp only [hb] at h
        · cases h
        have k1 := advance_rem_lt h1 ha
        have k2 := ihConj s1 q s2 hb
        have k3 := ihDisjLoop (acc.Or q) s2 p s' h
        exact ⟨by omega,
          fun hs => k3.2 (k2.2 (advance_lexOK ha hs))⟩
      · rw [if_neg h1] at h
        cases h
        exact ⟨le_refl _, fun hs => hs⟩
    have hDisj : ∀ s p s', disj (f + 1) s = .ok (p, s') →
        (remTok s' < remTok s ∧ (lexOK s → lexOK s')) := by
      intro s p s' h
      rw [disj] at h
      rcases ha : conj f s with e | ⟨q, s1⟩ <;> simp only [ha] at h
      · cases h
      have k1 := ihConj s q s1 ha
      have k2 := ihDisjLoop q s1 p s' h
      exact ⟨by omega, fun hs => k2.2 (k1.2 hs)⟩
    have hCond : ∀ s p s', cond (f + 1) s = .ok (p, s') →
        (remTok s' < remTok s ∧ (lexOK s → lexOK s')) := by
      intro s p s' h
      rw [cond] at h
      rcases ha : disj f s with e | ⟨l, s1⟩ <;> simp only [ha] at h
      · cases h
      have k1 := ihDisj s l s1 ha
      by_cases h1 : s1.curTy = some .IMPLIES
      · rw [if_pos h1] at h
        rcases hb : advance s1 with e | s2 <;> simp only [hb] at h
        · cases h
        rcases hc : cond f s2 with e | ⟨r, s3⟩ <;> simp only [hc] at h
        · cases h
        cases h
        have k2 := advance_rem_lt h1 hb
        have k3 := ihCond _ _ _ hc
        exact ⟨by omega,
          fun hs => k3.2 (advance_lexOK hb (k1.2 hs))⟩
      · rw [if_neg h1] at h
        cases h
        exact k1
    have hBic : ∀ s p s', bic (f + 1) s = .ok (p, s') →
        (remTok s' < remTok s ∧ (lexOK s → lexOK s')) := by
      intro s p s' h
      rw [bic] at h
      rcases ha : cond f s with e | ⟨l, s1⟩ <;> simp only [ha] at h
      · cases h
      have k1 := ihCond s l s1 ha
      by_cases h1 : s1.curTy = some .IFF
      · rw [if_pos h1] at h
        rcases hb : advance s1 with e | s2 <;> simp only [hb] at h
        · cases h
        rcases hc : bic f s2 with e | ⟨r, s3⟩ <;> simp only [hc] at h
        · cases h
        cases h
        have k2 := advance_rem_lt h1 hb
        have k3 := ihBic _ _ _ hc
        exact ⟨by omega,
          fun hs => k3.2 (advance_lexOK hb (k1.2 hs))⟩
      · rw [if_neg h1] at h
        cases h
        exact k1
    exact ⟨hUnit, hNeg, hConjLoop, hConj, hDisjLoop, hDisj, hCond, hBic⟩

/-- Fuel adequacy for the parser: starting from a state without the
fuel-artifact pending error, a rule with fuel at least eight times the
remaining tokens (plus its depth in the `bic → … → unit` chain) never
returns the fuel error.  This is the termination argument of the
recursive-descent parser: every re-entry into the grammar first consumes
a token, so the call depth is bounded in terms of the token count. -/
theorem parse_fuel_enough : ∀ fuel : Nat,
    (∀ s, lexOK s → 8 * remTok s + 1 ≤ fuel → unit fuel s ≠ .error .fuel) ∧
    (∀ s, lexOK s → 8 * remTok s + 2 ≤ fuel → neg fuel s ≠ .error .fuel) ∧
    (∀ acc s, lexOK s → 8 * remTok s + 3 ≤ fuel →
      conjLoop fuel acc s ≠ .error .fuel) ∧
    (∀ s, lexOK s → 8 * remTok s + 4 ≤ fuel → conj fuel s ≠ .error .fuel) ∧
    (∀ acc s, lexOK s → 8 * remTok s + 5 ≤ fuel →
      disjLoop fuel acc s ≠ .error .fuel) ∧
    (∀ s, lexOK s → 8 * remTok s + 6 ≤ fuel → disj fuel s ≠ .error .fuel) ∧
    (∀ s, lexOK s → 8 * remTok s + 7 ≤ fuel → cond fuel s ≠ .error .fuel) ∧
    (∀ s, lexOK s → 8 * remTok s + 8 ≤ fuel → bic fuel s ≠ .error .fuel) := by
  intro fuel
  induction fuel with
  | zero =>
    refine ⟨?_, ?_, ?_, ?_, ?_, ?_, ?_, ?_⟩ <;>
      first
      | (intro s hok hf; omega)
      | (intro acc s hok hf; omega)
  | succ f ih =>
    obtain ⟨ihUnit, ihNeg, ihConjLoop, ihConj, ihDisjLoop, ihDisj, ihCond,
      ihBic⟩ := ih
    obtain ⟨pcUnit, pcNeg, pcConjLoop, pcConj, pcDisjLoop, pcDisj, pcCond,
      pcBic⟩ := parse_consume f
    have hUnitF : ∀ s, lexOK s → 8 * remTok s + 1 ≤ f + 1 →
        unit (f + 1) s ≠ .error .fuel := by
      intro s hok hf hcontra
      rw [unit] at hcontra
      by_cases h1 : s.curTy = some .IDENT
      · rw [if_pos h1] at hcontra
        rcases ha : advance s with e | s1 <;> simp only [ha] at hcontra
        · cases hcontra; exact hok (advance_err ha)
        · cases hcontra
      · rw [if_neg h1] at hcontra
        by_cases h2 : s.curTy = some .LPARENS
        · rw [if_pos h2] at hcontra
          rcases ha : advance s with e | s1 <;> simp only [ha] at hcontra
          · cases hcontra; exact hok (advance_err ha)
          have hrem1 := advance_rem_lt h2 ha
          have hok1 := advance_lexOK ha hok
          rcases hb : bic f s1 with e | ⟨q, s2⟩ <;> simp only [hb] at hcontra
          · cases hcontra
            exact ihBic s1 hok1 (by omega) hb
          by_cases h3 : s2.curTy = some .RPARENS
          · rw [if_pos h3] at hcontra
            rcases hc : advance s2 with e | s3 <;> simp only [hc] at hcontra
            · cases hcontra
              exact (pcBic _ _ _ hb).2 hok1 (advance_err hc)
            · cases hcontra
          · rw [if_neg h3] at hcontra
            exact unitErr_no_fuel s2 hcontra
        · rw [if_neg h2] at hcontra
          exact unitErr_no_fuel s hcontra
    have hNegF : ∀ s, lexOK s → 8 * remTok s + 2 ≤ f + 1 →
        neg (f + 1) s ≠ .error .fuel := by
      intro s hok hf hcontra
      rw [neg] at hcontra
      by_cases h1 : s.curTy = some .NOT
      · rw [if_pos h1] at hcontra
        rcases ha : advance s with e | s1 <;> simp only [ha] at hcontra
        · cases hcontra; exact hok (advance_err ha)
        have hrem1 := advance_rem_lt h1 ha
        have hok1 := advance_lexOK ha hok
        rcases hb : neg f s1 with e | ⟨q, s2⟩ <;> simp only [hb] at hcontra
        · cases hcontra
          exact ihNeg s1 hok1 (by omega) hb
        · cases hcontra
      · rw [if_neg h1] at hcontra
        exact ihUnit s hok (by omega) hcontra
    have hConjLoopF : ∀ acc s, lexOK s → 8 * remTok s + 3 ≤ f + 1 →
        conjLoop (f + 1) acc s ≠ .error .fuel := by
      intro acc s hok hf hcontra
      rw [conjLoop] at hcontra
      by_cases h1 : s.curTy = some .AND
      · rw [if_pos h1] at hcontra
        rcases ha : advance s with e | s1 <;> simp only [ha] at hcontra
        · cases hcontra; exact hok (advance_err ha)
        have hrem1 := advance_rem_lt h1 ha
        have hok1 := advance_lexOK ha hok
        rcases hb : neg f s1 with e | ⟨q, s2⟩ <;> simp only [hb] at hcontra
        · cases hcontra
          exact ihNeg s1 hok1 (by omega) hb
        have hrem2 := (pcNeg _ _ _ hb).1
        have hok2 := (pcNeg _ _ _ hb).2 hok1
        exact ihConjLoop (acc.And q) s2 hok2 (by omega) hcontra
      · rw [if_neg h1] at hcontra
        cases hcontra
    have hConjF : ∀ s, lexOK s → 8 * remTok s + 4 ≤ f + 1 →
        conj (f + 1) s ≠ .error .fuel := by
      intro s hok hf hcontra
      rw [conj] at hcontra
      rcases ha : neg f s with e | ⟨q, s1⟩ <;> simp only [ha] at hcontra
      · cases hcontra
        exact ihNeg s hok (by omega) ha
      have hrem1 := (pcNeg _ _ _ ha).1
      have hok1 := (pcNeg _ _ _ ha).2 hok
      exact ihConjLoop q s1 hok1 (by omega) hcontra
    have hDisjLoopF : ∀ acc s, lexOK s → 8 * remTok s + 5 ≤ f + 1 →
        disjLoop (f + 1) acc s ≠ .error .fuel := by
      intro acc s hok hf hcontra
      rw [disjLoop] at hcontra
      by_cases h1 : s.curTy = some .OR
      · rw [if_pos h1] at hcontra
        rcases ha : advance s with e | s1 <;> simp only [ha] at hcontra
        · cases hcontra; exact hok (advance_err ha)
        have hrem1 := advance_rem_lt h1 ha
        have hok1 := advance_lexOK ha hok
        rcases hb : conj f s1 with e | ⟨q, s2⟩ <;> simp only [hb] at hcontra
        · cases hcontra
          exact ihConj s1 hok1 (by omega) hb
        have hrem2 := (pcConj _ _ _ hb).1
        have hok2 := (pcConj _ _ _ hb).2 hok1
        exact ihDisjLoop (acc.Or q) s2 hok2 (by omega) hcontra
      · rw [if_neg h1] at hcontra
        cases hcontra
    have hDisjF : ∀ s, lexOK s → 8 * remTok s + 6 ≤ f + 1 →
        disj (f + 1) s ≠ .error .fuel := by
      intro s hok hf hcontra
      rw [disj] at hcontra
      rcases ha : conj f s with e | ⟨q, s1⟩ <;> simp only [ha] at hcontra
      · cases hcontra
        exact ihConj s hok (by omega) ha
      have hrem1 := (pcConj _ _ _ ha).1
      have hok1 := (pcConj _ _ _ ha).2 hok
      exact ihDisjLoop q s1 hok1 (by omega) hcontra
    have hCondF : ∀ s, lexOK s → 8 * remTok s + 7 ≤ f + 1 →
        cond (f + 1) s ≠ .error .fuel := by
      intro s hok hf hcontra
      rw [cond] at hcontra
      rcases ha : disj f s with e | ⟨l, s1⟩ <;> simp only [ha] at hcontra
      · cases hcontra
        exact ihDisj s hok (by omega) ha
      have hrem1 := (pcDisj _ _ _ ha).1
      have hok1 := (pcDisj _ _ _ ha).2 hok
      by_cases h1 : s1.curTy = some .IMPLIES
      · rw [if_pos h1] at hcontra
        rcases hb : advance s1 with e | s2 <;> simp only [hb] at hcontra
        · cases hcontra; exact hok1 (advance_err hb)
        have hrem2 := advance_rem_lt h1 hb
        have hok2 := advance_lexOK hb hok1
        rcases hc : cond f s2 with e | ⟨r, s3⟩ <;> simp only [hc] at hcontra
        · cases hcontra
          exact ihCond s2 hok2 (by omega) hc
        · cases hcontra
      · rw [if_neg h1] at hcontra
        cases hcontra
    have hBicF : ∀ s, lexOK s → 8 * remTok s + 8 ≤ f + 1 →
        bic (f + 1) s ≠ .error .fuel := by
      intro s hok hf hcontra
      rw [bic] at hcontra
      rcases ha : cond f s with e | ⟨l, s1⟩ <;> simp only [ha] at hcontra
      · cases hcontra
        exact ihCond s hok (by omega) ha
      have hrem1 := (pcCond _ _ _ ha).1
      have hok1 := (pcCond _ _ _ ha).2 hok
      by_cases h1 : s1.curTy = some .IFF
      · rw [if_pos h1] at hcontra
        rcases hb : advance s1 with e | s2 <;> simp only [hb] at hcontra
        · cases hcontra; exact hok1 (advance_err hb)
        have hrem2 := advance_rem_lt h1 hb
        have hok2 := advance_lexOK hb hok1
        rcases hc : bic f s2 with e | ⟨r, s3⟩ <;> simp only [hc] at hcontra
        · cases hcontra
          exact ihBic s2 hok2 (by omega) hc
        · cases hcontra
      · rw [if_neg h1] at hcontra
        cases hcontra
    exact ⟨hUnitF, hNegF, hConjLoopF, hConjF, hDisjLoopF, hDisjF, hCondF,
      hBicF⟩

/-- With fuel exceeding the input length the lexer never reports the
fuel artifact: every recursive call of `lexChars` consumes at least one
input character. -/
theorem lexChars_no_fuel : ∀ fuel l, l.length < fuel →
    (lexChars fuel l).2 ≠ some .fuel := by
  intro fuel
  induction fuel with
  | zero => intro l hl; omega
  | succ f ih =>
    intro l hl
    rcases l with _ | ⟨c, cs⟩
    · simp [lexChars]
    simp only [List.length_cons] at hl
    rw [lexChars]
    by_cases c1 : c = '~'
    · rw [if_pos c1, tcons_snd]; exact ih cs (by omega)
    rw [if_neg c1]
    by_cases c2 : c = '&'
    · rw [if_pos c2, tcons_snd]; exact ih cs (by omega)
    rw [if_neg c2]
    by_cases c3 : c = '|'
    · rw [if_pos c3, tcons_snd]; exact ih cs (by omega)
    rw [if_neg c3]
    by_cases c4 : c = '-'
    · rw [if_pos c4]
      rcases cs with _ | ⟨d, ds⟩
      · simp [lexAccept]
      · by_cases d1 : d = '>'
        · simp only [lexAccept, if_pos d1, tcons_snd]
          exact ih ds (by simp at hl; omega)
        · simp [lexAccept, d1]
    rw [if_neg c4]
    by_cases c5 : c = '<'
    · rw [if_pos c5]
      rcases cs with _ | ⟨d, ds⟩
      · simp [lexAccept]
      · by_cases d1 : d = '-'
        · rcases ds with _ | ⟨e2, es⟩
          · simp [lexAccept, d1]
          · by_cases e1 : e2 = '>'
            · simp only [lexAccept, if_pos d1, if_pos e1, tcons_snd]
              exact ih es (by simp at hl; omega)
            · simp [lexAccept, d1, e1]
        · simp [lexAccept, d1]
    rw [if_neg c5]
    by_cases c6 : c = '('
    · rw [if_pos c6, tcons_snd]; exact ih cs (by omega)
    rw [if_neg c6]
    by_cases c7 : c = ')'
    · rw [if_pos c7, tcons_snd]; exact ih cs (by omega)
    rw [if_neg c7]
    by_cases c8 : isWS c
    · rw [if_pos c8]; exact ih cs (by omega)
    rw [if_neg c8]
    by_cases c9 : isIdentStart c
    · rw [if_pos c9, tcons_snd]
      exact ih (cs.dropWhile isIdentCont)
        (by have := length_dropWhile_le isIdentCont cs; omega)
    · rw [if_neg c9]; simp

/-- The lexer yields at most one token per input character (every
emitted token consumes at least one character of input). -/
theorem lexChars_count : ∀ fuel l, ((lexChars fuel l).1).length ≤ l.length := by
  intro fuel
  induction fuel with
  | zero => intro l; simp [lexChars]
  | succ f ih =>
    intro l
    rcases l with _ | ⟨c, cs⟩
    · simp [lexChars]
    rw [lexChars]
    simp only [List.length_cons]
    by_cases c1 : c = '~'
    · rw [if_pos c1, tcons_fst]; have := ih cs; simp; omega
    rw [if_neg c1]
    by_cases c2 : c = '&'
    · rw [if_pos c2, tcons_fst]; have := ih cs; simp; omega
    rw [if_neg c2]
    by_cases c3 : c = '|'
    · rw [if_pos c3, tcons_fst]; have := ih cs; simp; omega
    rw [if_neg c3]
    by_cases c4 : c = '-'
    · rw [if_pos c4]
      rcases cs with _ | ⟨d, ds⟩
      · simp [lexAccept]
      · by_cases d1 : d = '>'
        · simp only [lexAccept, if_pos d1, tcons_fst]
          have := ih ds; simp; omega
        · simp [lexAccept, d1]
    rw [if_neg c4]
    by_cases c5 : c = '<'
    · rw [if_pos c5]
      rcases cs with _ | ⟨d, ds⟩
      · simp [lexAccept]
      · by_cases d1 : d = '-'
        · rcases ds with _ | ⟨e2, es⟩
          · simp [lexAccept, d1]
          · by_cases e1 : e2 = '>'
            · simp only [lexAccept, if_pos d1, if_pos e1, tcons_fst]
              have := ih es; simp; omega
            · simp [lexAccept, d1, e1]
        · simp [lexAccept, d1]
    rw [if_neg c5]
    by_cases c6 : c = '('
    · rw [if_pos c6, tcons_fst]; have := ih cs; simp; omega
    rw [if_neg c6]
    by_cases c7 : c = ')'
    · rw [if_pos c7, tcons_fst]; have := ih cs; simp; omega
    rw [if_neg c7]
    by_cases c8 : isWS c
    · rw [if_pos c8]; have := ih cs; omega
    rw [if_neg c8]
    by_cases c9 : isIdentStart c
    · rw [if_pos c9, tcons_fst]
      have h1 := ih (cs.dropWhile isIdentCont)
      have h2 := length_dropWhile_le isIdentCont cs
      simp; omega
    · rw [if_neg c9]; simp

/-- Congruence for `lexAccept`: continuations that agree on shorter
inputs give the same result. -/
theorem lexAccept_congr (expected : Char)
    (k1 k2 : List Char → List Tok × Option Err) (cs : List Char)
    (h : ∀ ds, ds.length < cs.length → k1 ds = k2 ds) :
    lexAccept expected k1 cs = lexAccept expected k2 cs := by
  rcases cs with _ | ⟨d, ds⟩
  · rfl
  · simp only [lexAccept]
    by_cases d1 : d = expected
    · simp only [if_pos d1]
      exact h ds (by simp)
    · simp only [if_neg d1]

/-- The lexer result does not depend on the fuel, as long as the fuel
exceeds the input length. -/
theorem lexChars_irrel : ∀ (l : List Char) (f g : Nat), l.length < f →
    l.length < g → lexChars f l = lexChars g l
  | [], f, g, hf, hg => by
    obtain ⟨f', rfl⟩ : ∃ k, f = k + 1 := ⟨f - 1, by omega⟩
    obtain ⟨g', rfl⟩ : ∃ k, g = k + 1 := ⟨g - 1, by omega⟩
    rfl
  | c :: cs, f, g, hf, hg => by
    obtain ⟨f', rfl⟩ : ∃ k, f = k + 1 := ⟨f - 1, by omega⟩
    obtain ⟨g', rfl⟩ : ∃ k, g = k + 1 := ⟨g - 1, by omega⟩
    simp only [List.length_cons] at hf hg
    rw [lexChars, lexChars]
    by_cases c1 : c = '~'
    · simp only [if_pos c1]
      rw [lexChars_irrel cs f' g' (by omega) (by omega)]
    simp only [if_neg c1]
    by_cases c2 : c = '&'
    · simp only [if_pos c2]
      rw [lexChars_irrel cs f' g' (by omega) (by omega)]
    simp only [if_neg c2]
    by_cases c3 : c = '|'
    · simp only [if_pos c3]
      rw [lexChars_irrel cs f' g' (by omega) (by omega)]
    simp only [if_neg c3]
    by_cases c4 : c = '-'
    · simp only [if_pos c4]
      apply lexAccept_congr
      intro ds hds
      rw [lexChars_irrel ds f' g' (by simp at hf; omega)
        (by simp at hg; omega)]
    simp only [if_neg c4]
    by_cases c5 : c = '<'
    · simp only [if_pos c5]
      apply lexAccept_congr
      intro ds hds
      apply lexAccept_congr
      intro es hes
      rw [lexChars_irrel es f' g' (by simp at hf; omega)
        (by simp at hg; omega)]
    simp only [if_neg c5]
    by_cases c6 : c = '('
    · simp only [if_pos c6]
      rw [lexChars_irrel cs f' g' (by omega) (by omega)]
    simp only [if_neg c6]
    by_cases c7 : c = ')'
    · simp only [if_pos c7]
      rw [lexChars_irrel cs f' g' (by omega) (by omega)]
    simp only [if_neg c7]
    by_cases c8 : isWS c
    · simp only [if_pos c8]
      exact lexChars_irrel cs f' g' (by omega) (by omega)
    simp only [if_neg c8]
    by_cases c9 : isIdentStart c
    · simp only [if_pos c9]
      rw [lexChars_irrel (cs.dropWhile isIdentCont) f' g'
        (by have := length_dropWhile_le isIdentCont cs; omega)
        (by have := length_dropWhile_le isIdentCont cs; omega)]
    simp only [if_neg c9]
termination_by l => l.length
decreasing_by
  all_goals simp
  all_goals try omega
  all_goals exact Nat.lt_succ_of_le (length_dropWhile_le isIdentCont cs)

theorem lexAll_tilde (X : List Char) :
    lexAll ('~' :: X) = tcons ⟨.NOT, "~"⟩ (lexAll X) := rfl

theorem lexAll_amp (X : List Char) :
    lexAll ('&' :: X) = tcons ⟨.AND, "&"⟩ (lexAll X) := rfl

theorem lexAll_pipe (X : List Char) :
    lexAll ('|' :: X) = tcons ⟨.OR, "|"⟩ (lexAll X) := rfl

theorem lexAll_lparen (X : List Char) :
    lexAll ('(' :: X) = tcons ⟨.LPARENS, "("⟩ (lexAll X) := rfl

theorem lexAll_rparen (X : List Char) :
    lexAll (')' :: X) = tcons ⟨.RPARENS, ")"⟩ (lexAll X) := rfl

theorem lexAll_space (X : List Char) : lexAll (' ' :: X) = lexAll X := rfl

theorem lexAll_arrow (X : List Char) :
    lexAll ('-' :: '>' :: X) = tcons ⟨.IMPLIES, "->"⟩ (lexAll X) := by
  show tcons ⟨.IMPLIES, "->"⟩ (lexChars (X.length + 2) X) = _
  rw [lexChars_irrel X (X.length + 2) (X.length + 1) (by omega) (by omega)]
  rfl

theorem lexAll_darrow (X : List Char) :
    lexAll ('<' :: '-' :: '>' :: X) = tcons ⟨.IFF, "<->"⟩ (lexAll X) := by
  show tcons ⟨.IFF, "<->"⟩ (lexChars (X.length + 3) X) = _
  rw [lexChars_irrel X (X.length + 3) (X.length + 1) (by omega) (by omega)]
  rfl

/-- Characters that may start an identifier per the spec's ASCII pattern
match no other lexer branch. -/
theorem identStart_facts (c : Char) (h : (c.isAlpha || c == '_') = true) :
    c ≠ '~' ∧ c ≠ '&' ∧ c ≠ '|' ∧ c ≠ '-' ∧ c ≠ '<' ∧ c ≠ '(' ∧ c ≠ ')' ∧
    isWS c = false ∧ isIdentStart c = true := by
  have hne : ∀ x : Char, (x.isAlpha || x == '_') = false → c ≠ x := by
    intro x hx hcx
    rw [hcx, hx] at h
    cases h
  have hws : isWS c = false := by
    rcases hw : isWS c
    · rfl
    · exfalso
      have hd5 : c = ' ' ∨ c = '\t' ∨ c = '\x0c' ∨ c = '\r' ∨ c = '\n' := by
        simpa [isWS, or_assoc] using hw
      rcases hd5 with rfl | rfl | rfl | rfl | rfl <;> exact absurd h (by decide)
  have hst : isIdentStart c = true := by
    simp only [Bool.or_eq_true, beq_iff_eq] at h
    simp only [isIdentStart, pyIsAlpha, Bool.or_eq_true, beq_iff_eq]
    tauto
  exact ⟨hne '~' (by decide), hne '&' (by decide), hne '|' (by decide),
    hne '-' (by decide), hne '<' (by decide), hne '(' (by decide),
    hne ')' (by decide), hws, hst⟩

/-- Characters allowed after the first position of an identifier per the
spec's ASCII pattern continue an identifier in the lexer. -/
theorem identCont_fact (c : Char) (h : (c.isAlphanum || c == '_') = true) :
    isIdentCont c = true := by
  simp only [Char.isAlphanum, Bool.or_eq_true, beq_iff_eq] at h
  simp only [isIdentCont, pyIsAlnum, pyIsAlpha, Bool.or_eq_true, beq_iff_eq]
  tauto

theorem takeWhile_append_ident (l r : List Char)
    (hl : ∀ c ∈ l, isIdentCont c = true) (hr : contOK r) :
    (l ++ r).takeWhile isIdentCont = l ∧ (l ++ r).dropWhile isIdentCont = r := by
  induction l with
  | nil =>
    rcases r with _ | ⟨c, rs⟩
    · simp
    · have hc : isIdentCont c = false := hr
      simp only [List.nil_append]
      exact ⟨List.takeWhile_cons_of_neg (by simp [hc]),
        List.dropWhile_cons_of_neg (by simp [hc])⟩
  | cons a l ih =>
    have ha := hl a (by simp)
    obtain ⟨h1, h2⟩ := ih (fun c hc => hl c (by simp [hc]))
    simp only [List.cons_append]
    exact ⟨by rw [List.takeWhile_cons_of_pos (by simp [ha]), h1],
      by rw [List.dropWhile_cons_of_pos (by simp [ha]), h2]⟩

theorem validIdent_parts {n : String} (h : validIdent n = true) :
    ∃ c cs, n.data = c :: cs ∧ (c.isAlpha || c == '_') = true ∧
      ∀ d ∈ cs, (d.isAlphanum || d == '_') = true := by
  rw [validIdent] at h
  rcases hd : n.data with _ | ⟨c, cs⟩ <;> rw [hd] at h
  · cases h
  · refine ⟨c, cs, rfl, ?_, ?_⟩
    · rw [Bool.and_eq_true] at h
      exact h.1
    · intro d hdm
      rw [Bool.and_eq_true] at h
      have h2 := h.2
      rw [List.all_eq_true] at h2
      exact h2 d hdm

/-- Lexing a valid identifier at the head of the input emits exactly one
IDENT token carrying it, provided what follows cannot extend it. -/
theorem lexAll_ident (n : String) (X : List Char) (hn : validIdent n = true)
    (hX : contOK X) : lexAll (n.data ++ X) = tcons ⟨.IDENT, n⟩ (lexAll X) := by
  obtain ⟨c, cs, hd, hstart, hcs⟩ := validIdent_parts hn
  obtain ⟨hn1, hn2, hn3, hn4, hn5, hn6, hn7, hws, hst⟩ :=
    identStart_facts c hstart
  have hcont : ∀ d ∈ cs, isIdentCont d = true :=
    fun d hdm => identCont_fact d (hcs d hdm)
  obtain ⟨htake, hdrop⟩ := takeWhile_append_ident cs X hcont hX
  rw [hd]
  show lexChars ((c :: cs ++ X).length + 1) (c :: (cs ++ X)) = _
  rw [lexChars]
  rw [if_neg hn1, if_neg hn2, if_neg hn3, if_neg hn4, if_neg hn5, if_neg hn6,
    if_neg hn7, if_neg (by simp [hws]), if_pos hst]
  rw [htake, hdrop]
  have hmk : String.mk (c :: cs) = n := by
    rw [← hd]
  rw [hmk]
  rw [lexChars_irrel X ((c :: cs ++ X).length) (X.length + 1)
    (by simp; omega) (by omega)]
  rfl

/-- The characters of the canonical rendering. -/
theorem toStr_data : ∀ t : Proposition, (Proposition.toStr t).data = renderChars t := by
  have hap : ∀ a b : String, (a ++ b).data = a.data ++ b.data := fun a b => rfl
  intro t
  induction t with
  | Atomic n => rfl
  | Not p ih =>
    have d0 : "~".data = ['~'] := rfl
    simp only [Proposition.toStr, hap, ih, d0, renderChars]
    simp
  | And l r ihl ihr =>
    have d1 : "(".data = ['('] := rfl
    have d2 : " & ".data = [' ', '&', ' '] := rfl
    have d3 : ")".data = [')'] := rfl
    simp only [Proposition.toStr, hap, ihl, ihr, d1, d2, d3, renderChars]
    simp [List.append_assoc]
  | Or l r ihl ihr =>
    have d1 : "(".data = ['('] := rfl
    have d2 : " | ".data = [' ', '|', ' '] := rfl
    have d3 : ")".data = [')'] := rfl
    simp only [Proposition.toStr, hap, ihl, ihr, d1, d2, d3, renderChars]
    simp [List.append_assoc]
  | Implies l r ihl ihr =>
    have d1 : "(".data = ['('] := rfl
    have d2 : " -> ".data = [' ', '-', '>', ' '] := rfl
    have d3 : ")".data = [')'] := rfl
    simp only [Proposition.toStr, hap, ihl, ihr, d1, d2, d3, renderChars]
    simp [List.append_assoc]
  | Iff l r ihl ihr =>
    have d1 : "(".data = ['('] := rfl
    have d2 : " <-> ".data = [' ', '<', '-', '>', ' '] := rfl
    have d3 : ")".data = [')'] := rfl
    simp only [Proposition.toStr, hap, ihl, ihr, d1, d2, d3, renderChars]
    simp [List.append_assoc]

theorem tcons_prepend (t : Tok) (ts : List Tok) (r : List Tok × Option Err) :
    tcons t (prependToks ts r) = prependToks (t :: ts) r := by
  rcases r with ⟨a, b⟩
  rfl

/-- Lexing the canonical rendering of a proposition with valid atom
names yields exactly its token sequence, independently of a suffix that
cannot extend a trailing identifier. -/
theorem lexAll_render : ∀ (t : Proposition) (rest : List Char),
    allValidIdents t = true → contOK rest →
    lexAll (renderChars t ++ rest) = prependToks (tokensOf t) (lexAll rest) := by
  intro t
  induction t with
  | Atomic n =>
    intro rest hv hr
    rw [show renderChars (.Atomic n) = n.data from rfl,
      lexAll_ident n rest hv hr]
    rcases hlr : lexAll rest with ⟨a, b⟩
    rfl
  | Not p ih =>
    intro rest hv hr
    rw [show renderChars (.Not p) ++ rest = '~' :: (renderChars p ++ rest) by
      simp [renderChars]]
    rw [lexAll_tilde, ih rest hv hr, tcons_prepend]
    rfl
  | And l r ihl ihr =>
    intro rest hv hr
    obtain ⟨hvl, hvr⟩ : allValidIdents l = true ∧ allValidIdents r = true := by
      simpa [allValidIdents] using hv
    rw [show renderChars (.And l r) ++ rest =
        '(' :: (renderChars l ++
          (' ' :: '&' :: ' ' :: (renderChars r ++ (')' :: rest)))) by
      simp [renderChars]]
    rw [lexAll_lparen, ihl _ hvl (by show isIdentCont ' ' = false; decide),
      lexAll_space, lexAll_amp, lexAll_space,
      ihr _ hvr (by show isIdentCont ')' = false; decide), lexAll_rparen]
    rcases hlr : lexAll rest with ⟨a, b⟩
    simp [tcons, prependToks, tokensOf]
  | Or l r ihl ihr =>
    intro rest hv hr
    obtain ⟨hvl, hvr⟩ : allValidIdents l = true ∧ allValidIdents r = true := by
      simpa [allValidIdents] using hv
    rw [show renderChars (.Or l r) ++ rest =
        '(' :: (renderChars l ++
          (' ' :: '|' :: ' ' :: (renderChars r ++ (')' :: rest)))) by
      simp [renderChars]]
    rw [lexAll_lparen, ihl _ hvl (by show isIdentCont ' ' = false; decide),
      lexAll_space, lexAll_pipe, lexAll_space,
      ihr _ hvr (by show isIdentCont ')' = false; decide), lexAll_rparen]
    rcases hlr : lexAll rest with ⟨a, b⟩
    simp [tcons, prependToks, tokensOf]
  | Implies l r ihl ihr =>
    intro rest hv hr
    obtain ⟨hvl, hvr⟩ : allValidIdents l = true ∧ allValidIdents r = true := by
      simpa [allValidIdents] using hv
    rw [show renderChars (.Implies l r) ++ rest =
        '(' :: (renderChars l ++
          (' ' :: '-' :: '>' :: ' ' :: (renderChars r ++ (')' :: rest)))) by
      simp [renderChars]]
    rw [lexAll_lparen, ihl _ hvl (by show isIdentCont ' ' = false; decide),
      lexAll_space, lexAll_arrow, lexAll_space,
      ihr _ hvr (by show isIdentCont ')' = false; decide), lexAll_rparen]
    rcases hlr : lexAll rest with ⟨a, b⟩
    simp [tcons, prependToks, tokensOf]
  | Iff l r ihl ihr =>
    intro rest hv hr
    obtain ⟨hvl, hvr⟩ : allValidIdents l = true ∧ allValidIdents r = true := by
      simpa [allValidIdents] using hv
    rw [show renderChars (.Iff l r) ++ rest =
        '(' :: (renderChars l ++
          (' ' :: '<' :: '-' :: '>' :: ' ' :: (renderChars r ++ (')' :: rest)))) by
      simp [renderChars]]
    rw [lexAll_lparen, ihl _ hvl (by show isIdentCont ' ' = false; decide),
      lexAll_space, lexAll_darrow, lexAll_space,
      ihr _ hvr (by show isIdentCont ')' = false; decide), lexAll_rparen]
    rcases hlr : lexAll rest with ⟨a, b⟩
    simp [tcons, prependToks, tokensOf]

theorem curTy_mk (t : Tok) (l : List Tok) :
    (mkState (t :: l)).curTy = some t.ty := rfl

theorem curTy_mk_nil : (mkState []).curTy = none := rfl

theorem advance_mk (t : Tok) (l : List Tok) :
    advance (mkState (t :: l)) = .ok (mkState l) := by
  rcases l with _ | ⟨u, us⟩ <;> rfl

theorem conjLoop_stop {acc : Proposition} {s : PState} (f : Nat)
    (h : s.curTy ≠ some .AND) : conjLoop (f + 1) acc s = .ok (acc, s) := by
  rw [conjLoop, if_neg h]

theorem disjLoop_stop {acc : Proposition} {s : PState} (f : Nat)
    (h : s.curTy ≠ some .OR) : disjLoop (f + 1) acc s = .ok (acc, s) := by
  rw [disjLoop, if_neg h]

theorem conj_eq {s s1 : PState} {p : Proposition} (f : Nat)
    (h : neg (f + 1) s = .ok (p, s1)) :
    conj (f + 2) s = conjLoop (f + 1) p s1 := by
  rw [conj]
  simp only [h]

theorem disj_eq {s s1 : PState} {p : Proposition} (f : Nat)
    (h : conj (f + 1) s = .ok (p, s1)) :
    disj (f + 2) s = disjLoop (f + 1) p s1 := by
  rw [disj]
  simp only [h]

theorem conj_of_neg {s s' : PState} {p : Proposition} (f : Nat)
    (h : neg (f + 1) s = .ok (p, s')) (h2 : s'.curTy ≠ some .AND) :
    conj (f + 2) s = .ok (p, s') :=
  (conj_eq f h).trans (conjLoop_stop f h2)

theorem disj_of_conj {s s' : PState} {p : Proposition} (f : Nat)
    (h : conj (f + 1) s = .ok (p, s')) (h2 : s'.curTy ≠ some .OR) :
    disj (f + 2) s = .ok (p, s') :=
  (disj_eq f h).trans (disjLoop_stop f h2)

theorem cond_of_disj {s s' : PState} {p : Proposition} (f : Nat)
    (h : disj (f + 1) s = .ok (p, s')) (h2 : s'.curTy ≠ some .IMPLIES) :
    cond (f + 2) s = .ok (p, s') := by
  rw [cond]
  simp only [h]
  rw [if_neg h2]

theorem bic_of_cond {s s' : PState} {p : Proposition} (f : Nat)
    (h : cond (f + 1) s = .ok (p, s')) (h2 : s'.curTy ≠ some .IFF) :
    bic (f + 2) s = .ok (p, s') := by
  rw [bic]
  simp only [h]
  rw [if_neg h2]

theorem conjLoop_step {acc q : Proposition} {s s1 s2 : PState}
    {out : Proposition × PState} (f : Nat) (h1 : s.curTy = some .AND)
    (h2 : advance s = .ok s1) (h3 : neg f s1 = .ok (q, s2))
    (h4 : conjLoop f (.And acc q) s2 = .ok out) :
    conjLoop (f + 1) acc s = .ok out := by
  rw [conjLoop, if_pos h1]
  simp only [h2, h3]
  exact h4

theorem disjLoop_step {acc q : Proposition} {s s1 s2 : PState}
    {out : Proposition × PState} (f : Nat) (h1 : s.curTy = some .OR)
    (h2 : advance s = .ok s1) (h3 : conj f s1 = .ok (q, s2))
    (h4 : disjLoop f (.Or acc q) s2 = .ok out) :
    disjLoop (f + 1) acc s = .ok out := by
  rw [disjLoop, if_pos h1]
  simp only [h2, h3]
  exact h4

theorem cond_step {l r : Proposition} {s s1 s2 s3 : PState} (f : Nat)
    (h : disj (f + 1) s = .ok (l, s1)) (h1 : s1.curTy = some .IMPLIES)
    (h2 : advance s1 = .ok s2) (h3 : cond (f + 1) s2 = .ok (r, s3)) :
    cond (f + 2) s = .ok (.Implies l r, s3) := by
  rw [cond]
  simp only [h]
  rw [if_pos h1]
  simp only [h2, h3]

theorem bic_step {l r : Proposition} {s s1 s2 s3 : PState} (f : Nat)
    (h : cond (f + 1) s = .ok (l, s1)) (h1 : s1.curTy = some .IFF)
    (h2 : advance s1 = .ok s2) (h3 : bic (f + 1) s2 = .ok (r, s3)) :
    bic (f + 2) s = .ok (.Iff l r, s3) := by
  rw [bic]
  simp only [h]
  rw [if_pos h1]
  simp only [h2, h3]

theorem neg_of_unit {s : PState} {out : Proposition × PState} (f : Nat)
    (h0 : s.curTy ≠ some .NOT) (h : unit f s = .ok out) :
    neg (f + 1) s = .ok out := by
  rw [neg, if_neg h0]
  exact h

theorem neg_not_step {p : Proposition} {s s1 s2 : PState} (f : Nat)
    (h0 : s.curTy = some .NOT) (h1 : advance s = .ok s1)
    (h2 : neg f s1 = .ok (p, s2)) : neg (f + 1) s = .ok (.Not p, s2) := by
  rw [neg, if_pos h0]
  simp only [h1, h2]

theorem unit_paren {p : Proposition} {s s1 s2 s3 : PState} (f : Nat)
    (h0 : s.curTy ≠ some .IDENT) (h0b : s.curTy = some .LPARENS)
    (h1 : advance s = .ok s1) (h2 : bic f s1 = .ok (p, s2))
    (h3 : s2.curTy = some .RPARENS) (h4 : advance s2 = .ok s3) :
    unit (f + 1) s = .ok (p, s3) := by
  rw [unit, if_neg h0, if_pos h0b]
  simp only [h1, h2]
  rw [if_pos h3]
  simp only [h4]

theorem unit_ident (f : Nat) (n : String) (rest : List Tok) :
    unit (f + 1) (mkState (⟨.IDENT, n⟩ :: rest)) =
      .ok (.Atomic n, mkState rest) := by
  rw [unit, if_pos (by simp [curTy_mk])]
  simp only [advance_mk]
  rfl

/-- Parsing the token sequence of a rendered proposition at the `neg`
level consumes exactly those tokens and rebuilds the proposition (every
rendered proposition is an atom, a `~`-chain, or parenthesized, so it is
`neg`-parseable); any following tokens are left untouched. -/
theorem neg_tokensOf : ∀ (t : Proposition) (extra : List Tok) (fuel : Nat),
    8 * (tokensOf t).length ≤ fuel →
    neg fuel (mkState (tokensOf t ++ extra)) = .ok (t, mkState extra) := by
  intro t
  induction t with
  | Atomic n =>
    intro extra fuel hf
    simp only [tokensOf, List.length_cons, List.length_nil] at hf
    obtain ⟨g, rfl⟩ : ∃ g, fuel = g + 2 := ⟨fuel - 2, by omega⟩
    rw [show tokensOf (.Atomic n) ++ extra = ⟨.IDENT, n⟩ :: extra from rfl]
    exact neg_of_unit (g + 1) (by simp [curTy_mk]) (unit_ident g n extra)
  | Not p ih =>
    intro extra fuel hf
    simp only [tokensOf, List.length_cons] at hf
    obtain ⟨g, rfl⟩ : ∃ g, fuel = g + 1 := ⟨fuel - 1, by omega⟩
    rw [show tokensOf (.Not p) ++ extra = ⟨.NOT, "~"⟩ :: (tokensOf p ++ extra)
      by simp [tokensOf]]
    exact neg_not_step g rfl (advance_mk _ _) (ih extra g (by omega))
  | And l r ihl ihr =>
    intro extra fuel hf
    simp only [tokensOf, List.length_append, List.length_cons,
      List.length_nil] at hf
    obtain ⟨g, rfl⟩ : ∃ g, fuel = g + 8 := ⟨fuel - 8, by omega⟩
    have hl := ihl (⟨.AND, "&"⟩ :: (tokensOf r ++ (⟨.RPARENS, ")"⟩ :: extra)))
      (g + 2) (by omega)
    have hr2 := ihr (⟨.RPARENS, ")"⟩ :: extra) (g + 1) (by omega)
    have hcl : conjLoop (g + 2) l
        (mkState (⟨.AND, "&"⟩ :: (tokensOf r ++ (⟨.RPARENS, ")"⟩ :: extra)))) =
        .ok (.And l r, mkState (⟨.RPARENS, ")"⟩ :: extra)) :=
      conjLoop_step (g + 1) rfl (advance_mk _ _) hr2
        (conjLoop_stop g (by simp [curTy_mk]))
    have hconj := (conj_eq (g + 1) hl).trans hcl
    have hbic : bic (g + 6)
        (mkState (tokensOf l ++
          (⟨.AND, "&"⟩ :: (tokensOf r ++ (⟨.RPARENS, ")"⟩ :: extra))))) =
        .ok (.And l r, mkState (⟨.RPARENS, ")"⟩ :: extra)) :=
      bic_of_cond (g + 4) (cond_of_disj (g + 3)
        (disj_of_conj (g + 2) hconj (by simp [curTy_mk]))
        (by simp [curTy_mk])) (by simp [curTy_mk])
    rw [show tokensOf (.And l r) ++ extra = ⟨.LPARENS, "("⟩ ::
      (tokensOf l ++ (⟨.AND, "&"⟩ :: (tokensOf r ++ (⟨.RPARENS, ")"⟩ :: extra))))
      by simp [tokensOf]]
    exact neg_of_unit (g + 7) (by simp [curTy_mk])
      (unit_paren (g + 6) (by simp [curTy_mk]) rfl (advance_mk _ _) hbic rfl
        (advance_mk _ _))
  | Or l r ihl ihr =>
    intro extra fuel hf
    simp only [tokensOf, List.length_append, List.length_cons,
      List.length_nil] at hf
    obtain ⟨g, rfl⟩ : ∃ g, fuel = g + 8 := ⟨fuel - 8, by omega⟩
    have hl := ihl (⟨.OR, "|"⟩ :: (tokensOf r ++ (⟨.RPARENS, ")"⟩ :: extra)))
      (g + 2) (by omega)
    have hr2 := ihr (⟨.RPARENS, ")"⟩ :: extra) (g + 1) (by omega)
    have hconj := conj_of_neg (g + 1) hl (by simp [curTy_mk])
    have hdl : disjLoop (g + 3) l
        (mkState (⟨.OR, "|"⟩ :: (tokensOf r ++ (⟨.RPARENS, ")"⟩ :: extra)))) =
        .ok (.Or l r, mkState (⟨.RPARENS, ")"⟩ :: extra)) :=
      disjLoop_step (g + 2) rfl (advance_mk _ _)
        (conj_of_neg g hr2 (by simp [curTy_mk]))
        (disjLoop_stop (g + 1) (by simp [curTy_mk]))
    have hdisj := (disj_eq (g + 2) hconj).trans hdl
    have hbic : bic (g + 6)
        (mkState (tokensOf l ++
          (⟨.OR, "|"⟩ :: (tokensOf r ++ (⟨.RPARENS, ")"⟩ :: extra))))) =
        .ok (.Or l r, mkState (⟨.RPARENS, ")"⟩ :: extra)) :=
      bic_of_cond (g + 4) (cond_of_disj (g + 3) hdisj (by simp [curTy_mk]))
        (by simp [curTy_mk])
    rw [show tokensOf (.Or l r) ++ extra = ⟨.LPARENS, "("⟩ ::
      (tokensOf l ++ (⟨.OR, "|"⟩ :: (tokensOf r ++ (⟨.RPARENS, ")"⟩ :: extra))))
      by simp [tokensOf]]
    exact neg_of_unit (g + 7) (by simp [curTy_mk])
      (unit_paren (g + 6) (by simp [curTy_mk]) rfl (advance_mk _ _) hbic rfl
        (advance_mk _ _))
  | Implies l r ihl ihr =>
    intro extra fuel hf
    simp only [tokensOf, List.length_append, List.length_cons,
      List.length_nil] at hf
    obtain ⟨g, rfl⟩ : ∃ g, fuel = g + 8 := ⟨fuel - 8, by omega⟩
    have hl := ihl
      (⟨.IMPLIES, "->"⟩ :: (tokensOf r ++ (⟨.RPARENS, ")"⟩ :: extra)))
      (g + 2) (by omega)
    have hr2 := ihr (⟨.RPARENS, ")"⟩ :: extra) (g + 1) (by omega)
    have hdisj := disj_of_conj (g + 2)
      (conj_of_neg (g + 1) hl (by simp [curTy_mk])) (by simp [curTy_mk])
    have hcondr : cond (g + 4)
        (mkState (tokensOf r ++ (⟨.RPARENS, ")"⟩ :: extra))) =
        .ok (r, mkState (⟨.RPARENS, ")"⟩ :: extra)) :=
      cond_of_disj (g + 2) (disj_of_conj (g + 1)
        (conj_of_neg g hr2 (by simp [curTy_mk])) (by simp [curTy_mk]))
        (by simp [curTy_mk])
    have hcond : cond (g + 5)
        (mkState (tokensOf l ++
          (⟨.IMPLIES, "->"⟩ :: (tokensOf r ++ (⟨.RPARENS, ")"⟩ :: extra))))) =
        .ok (.Implies l r, mkState (⟨.RPARENS, ")"⟩ :: extra)) :=
      cond_step (g + 3) hdisj rfl (advance_mk _ _) hcondr
    have hbic := bic_of_cond (g + 4) hcond (by simp [curTy_mk])
    rw [show tokensOf (.Implies l r) ++ extra = ⟨.LPARENS, "("⟩ ::
      (tokensOf l ++
        (⟨.IMPLIES, "->"⟩ :: (tokensOf r ++ (⟨.RPARENS, ")"⟩ :: extra))))
      by simp [tokensOf]]
    exact neg_of_unit (g + 7) (by simp [curTy_mk])
      (unit_paren (g + 6) (by simp [curTy_mk]) rfl (advance_mk _ _) hbic rfl
        (advance_mk _ _))
  | Iff l r ihl ihr =>
    intro extra fuel hf
    simp only [tokensOf, List.length_append, List.length_cons,
      List.length_nil] at hf
    obtain ⟨g, rfl⟩ : ∃ g, fuel = g + 8 := ⟨fuel - 8, by omega⟩
    have hl := ihl (⟨.IFF, "<->"⟩ :: (tokensOf r ++ (⟨.RPARENS, ")"⟩ :: extra)))
      (g + 2) (by omega)
    have hr2 := ihr (⟨.RPARENS, ")"⟩ :: extra) (g + 1) (by omega)
    have hcond : cond (g + 5)
        (mkState (tokensOf l ++
          (⟨.IFF, "<->"⟩ :: (tokensOf r ++ (⟨.RPARENS, ")"⟩ :: extra))))) =
        .ok (l, mkState
          (⟨.IFF, "<->"⟩ :: (tokensOf r ++ (⟨.RPARENS, ")"⟩ :: extra)))) :=
      cond_of_disj (g + 3) (disj_of_conj (g + 2)
        (conj_of_neg (g + 1) hl (by simp [curTy_mk])) (by simp [curTy_mk]))
        (by simp [curTy_mk])
    have hbicr : bic (g + 5)
        (mkState (tokensOf r ++ (⟨.RPARENS, ")"⟩ :: extra))) =
        .ok (r, mkState (⟨.RPARENS, ")"⟩ :: extra)) :=
      bic_of_cond (g + 3) (cond_of_disj (g + 2) (disj_of_conj (g + 1)
        (conj_of_neg g hr2 (by simp [curTy_mk])) (by simp [curTy_mk]))
        (by simp [curTy_mk])) (by simp [curTy_mk])
    have hbic : bic (g + 6)
        (mkState (tokensOf l ++
          (⟨.IFF, "<->"⟩ :: (tokensOf r ++ (⟨.RPARENS, ")"⟩ :: extra))))) =
        .ok (.Iff l r, mkState (⟨.RPARENS, ")"⟩ :: extra)) :=
      bic_step (g + 4) hcond rfl (advance_mk _ _) hbicr
    rw [show tokensOf (.Iff l r) ++ extra = ⟨.LPARENS, "("⟩ ::
      (tokensOf l ++ (⟨.IFF, "<->"⟩ :: (tokensOf r ++ (⟨.RPARENS, ")"⟩ :: extra))))
      by simp [tokensOf]]
    exact neg_of_unit (g + 7) (by simp [curTy_mk])
      (unit_paren (g + 6) (by simp [curTy_mk]) rfl (advance_mk _ _) hbic rfl
        (advance_mk _ _))

theorem tokensOf_ne_nil (t : Proposition) : tokensOf t ≠ [] := by
  cases t <;> simp [tokensOf]

/-- Parsing the token sequence of a rendered proposition at the `bic`
entry point with no tokens following rebuilds the proposition. -/
theorem bic_tokensOf (t : Proposition) (fuel : Nat)
    (hf : 8 * (tokensOf t).length + 5 ≤ fuel) :
    bic fuel (mkState (tokensOf t)) = .ok (t, mkState []) := by
  obtain ⟨g, rfl⟩ : ∃ g, fuel = g + 5 := ⟨fuel - 5, by omega⟩
  have hneg : neg (g + 1) (mkState (tokensOf t ++ [])) = .ok (t, mkState []) :=
    neg_tokensOf t [] (g + 1) (by omega)
  rw [List.append_nil] at hneg
  exact bic_of_cond (g + 3) (cond_of_disj (g + 2) (disj_of_conj (g + 1)
    (conj_of_neg g hneg (by simp [curTy_mk_nil])) (by simp [curTy_mk_nil]))
    (by simp [curTy_mk_nil])) (by simp [curTy_mk_nil])

/-- **C10** (confirmed).  Lexing and parsing terminate on every finite
input.  In the embedding both are fuel-indexed; the theorem shows the
fuel is an over-approximation that never runs out for the supplies used:
the lexer emits at most one token per character (each loop iteration
consumes at least one character, so `length + 1` steps always suffice
and `lex` never reports fuel exhaustion), and `prop`'s recursive-descent
parse never exhausts the fuel `8 * numberOfTokens + 8` (each grammar
re-entry first consumes a token, so the recursion depth is bounded in
terms of the token count): `prop` always returns an ordinary result — a
proposition or one of the real errors. -/
theorem lex_parse_terminate :
    (∀ fuel l, ((lexChars fuel l).1).length ≤ l.length) ∧
    (∀ text, (lex text).2 ≠ some .fuel) ∧
    (∀ text, prop text ≠ .error .fuel) := by
  have hnf : ∀ text, (lex text).2 ≠ some .fuel := by
    intro text
    exact lexChars_no_fuel (text.data.length + 1) text.data (by omega)
  refine ⟨lexChars_count, hnf, ?_⟩
  intro text hcontra
  rw [prop] at hcontra
  rcases hl : lex text with ⟨toks, lexErr⟩
  simp only [hl] at hcontra
  rcases toks with _ | ⟨t, ts⟩
  · rcases lexErr with _ | e
    · cases hcontra
    · cases hcontra
      exact hnf text (by rw [hl])
  · have hok : lexOK ⟨some t, ts, lexErr⟩ := by
      rw [lexOK]
      intro hbad
      exact hnf text (by rw [hl]; exact hbad)
    have hrem : remTok ⟨some t, ts, lexErr⟩ = ts.length + 1 := by
      simp [remTok]; omega
    obtain ⟨-, -, -, -, -, -, -, hB⟩ :=
      parse_fuel_enough (8 * (ts.length + 1) + 8)
    have hbic := hB ⟨some t, ts, lexErr⟩ hok (by omega)
    rcases hb : bic (8 * (ts.length + 1) + 8) ⟨some t, ts, lexErr⟩ with
      e | ⟨p, s'⟩ <;> simp only [hb] at hcontra
    · cases hcontra
      exact hbic hb
    · cases hcontra

/-- **C6** (confirmed).  Round-trip law: for every proposition tree
whose atomic names all match the identifier pattern
`[A-Za-z_][A-Za-z0-9_]*`, parsing the canonical rendering (`str(t)`)
returns a structurally equal tree. -/
theorem parse_toStr_roundtrip (t : Proposition)
    (h : allValidIdents t = true) : prop t.toStr = .ok t := by
  have hlx : lex t.toStr = (tokensOf t, none) := by
    rw [lex, toStr_data]
    have h1 := lexAll_render t [] h trivial
    rw [List.append_nil] at h1
    rw [show lexChars ((renderChars t).length + 1) (renderChars t) =
      lexAll (renderChars t) from rfl, h1]
    simp [prependToks, lexAll, lexChars]
  rw [prop]
  rcases htk : tokensOf t with _ | ⟨t0, ts⟩
  · exact absurd htk (tokensOf_ne_nil t)
  · simp only [hlx, htk]
    have hb : bic (8 * (ts.length + 1) + 8) (mkState (tokensOf t)) =
        .ok (t, mkState []) :=
      bic_tokensOf t _ (by rw [htk]; simp only [List.length_cons]; omega)
    rw [htk] at hb
    rw [show mkState (t0 :: ts) = ⟨some t0, ts, none⟩ from rfl] at hb
    simp only [hb]

/-- Witness for **C6**: the round-trip theorem applied to the concrete
tree `Implies(And(p, q), r)`, whose rendering is
`"((p & q) -> r)"`. -/
theorem parse_toStr_roundtrip_witness :
    allValidIdents
      (.Implies (.And (.Atomic "p") (.Atomic "q")) (.Atomic "r")) = true ∧
    prop (Proposition.toStr
      (.Implies (.And (.Atomic "p") (.Atomic "q")) (.Atomic "r"))) =
      .ok (.Implies (.And (.Atomic "p") (.Atomic "q")) (.Atomic "r")) :=
  ⟨by decide, parse_toStr_roundtrip _ (by decide)⟩

/-- **C1** (corrected: counterexample).  The claim says `prop` fails with
a parse error whenever tokens remain after the complete `bic` parse; in
fact `prop("p q")` — trailing garbage in the form of a second identifier
— succeeds and returns the formula parsed from the prefix, so the claim
is false. -/
theorem prop_trailing_ident_ok : prop "p q" = .ok (.Atomic "p") := by decide

/-- **C1** (amended).  `prop` runs `bic` and returns its result with no
end-of-stream check: tokens remaining after a complete `bic` parse are
silently discarded, and the formula parsed from the prefix is returned
(`"p q"`, `"p)"`); because the token generator is lazy and the parser
keeps one token of lookahead, trailing garbage still raises a lexer
error when it sits immediately after the parsed prefix (`"p -"`), but
not when it sits beyond the lookahead token (`"p q $"`); errors inside
the `bic` parse itself (a leading stray `)`, an unmatched `(`) are still
raised, carrying the unexpected lexeme or the end-of-input marker. -/
theorem prop_prefix_semantics :
    prop "p q" = .ok (.Atomic "p") ∧
    prop "p)" = .ok (.Atomic "p") ∧
    prop "p q $" = .ok (.Atomic "p") ∧
    prop "p -" = .error .unexpEndOfStr ∧
    prop ")" = .error (.unexpToken ")") ∧
    prop "(p" = .error .unexpEndOfStr := by decide

/-- **C2** (corrected: counterexample).  The claim says `prop ""` fails
with the `ValueError` carrying the end-of-string message; in fact the
bare `next(self._token_stream)` in `_Parser.__init__` raises
`StopIteration` on the empty token stream, not that `ValueError`. -/
theorem prop_empty_not_valueError :
    prop "" ≠ .error .unexpEndOfStr ∧ prop "" = .error .stopIteration := by
  decide

/-- **C2** (amended).  An empty or all-whitespace input yields zero
tokens, and `prop` then fails — but with the `StopIteration` escaping
from the initial bare `next(...)` in `_Parser.__init__`, before the
`unit` rule (and its end-of-string `ValueError`) is ever reached. -/
theorem prop_empty_raises_stopIteration :
    prop "" = .error .stopIteration ∧
    prop " \t\x0c\r\n" = .error .stopIteration := by decide

/-- **C3** (confirmed).  Precedence tightest-to-loosest is `~`, `&`,
`|`, `->`, `<->` (each adjacent pair witnessed), `&` and `|` are
left-associative with the earliest operand leftmost-nested, and `->` and
`<->` are right-associative; in particular `prop "p & q | r"` is
`Or(And(p,q),r)` and `prop "p -> q -> r"` is `Implies(p,Implies(q,r))`. -/
theorem parser_precedence_associativity :
    prop "p & q | r" = .ok (.Or (.And (.Atomic "p") (.Atomic "q")) (.Atomic "r")) ∧
    prop "p -> q -> r" =
      .ok (.Implies (.Atomic "p") (.Implies (.Atomic "q") (.Atomic "r"))) ∧
    prop "~p & q" = .ok (.And (.Not (.Atomic "p")) (.Atomic "q")) ∧
    prop "p | q -> r" =
      .ok (.Implies (.Or (.Atomic "p") (.Atomic "q")) (.Atomic "r")) ∧
    prop "p -> q <-> r" =
      .ok (.Iff (.Implies (.Atomic "p") (.Atomic "q")) (.Atomic "r")) ∧
    prop "p & q & r" = .ok (.And (.And (.Atomic "p") (.Atomic "q")) (.Atomic "r")) ∧
    prop "p | q | r" = .ok (.Or (.Or (.Atomic "p") (.Atomic "q")) (.Atomic "r")) ∧
    prop "p <-> q <-> r" =
      .ok (.Iff (.Atomic "p") (.Iff (.Atomic "q") (.Atomic "r"))) := by decide

/-- **C4** (confirmed).  In the lexer a `-` must be immediately followed
by `>`, and a `<` by `-` then `>`, checked one character at a time left
to right: `"-"` at end of input fails with the end-of-string error,
`"-x"` with unexpected character `x`, `"<-x"` with unexpected character
`x` (and the intermediate `<`-checks behave the same way); the same
errors surface through `prop`. -/
theorem lexer_dash_lookahead_errors :
    lex "-" = ([], some .unexpEndOfStr) ∧
    lex "-x" = ([], some (.unexpChar 'x')) ∧
    lex "<-x" = ([], some (.unexpChar 'x')) ∧
    lex "<" = ([], some .unexpEndOfStr) ∧
    lex "<-" = ([], some .unexpEndOfStr) ∧
    lex "<x" = ([], some (.unexpChar 'x')) ∧
    prop "-" = .error .unexpEndOfStr ∧
    prop "-x" = .error (.unexpChar 'x') ∧
    prop "<-x" = .error (.unexpChar 'x') := by decide

/-- **C5** (code bug).  The module docstring of `parsing.py` specifies
the ASCII identifier token `[a-zA-Z_][a-zA-Z0-9_]*`, and the claim says
every other non-whitespace character that starts no token is an
unexpected-character failure; but the implementation uses Python's
Unicode-aware `str.isalpha`/`str.isalnum`, so the non-ASCII letter `é`
is lexed as an identifier (and parsed as an atom) instead of being
rejected.  On ASCII input the maximal-run identifier behaviour is as
documented, and a character that starts no token (`$`) does fail. -/
theorem lexer_unicode_identifier_accepted :
    lex "é" = ([⟨.IDENT, "é"⟩], none) ∧
    prop "é" = .ok (.Atomic "é") ∧
    lex "ab_1 x" = ([⟨.IDENT, "ab_1"⟩, ⟨.IDENT, "x"⟩], none) ∧
    lex "_a9 " = ([⟨.IDENT, "_a9"⟩], none) ∧
    lex "$" = ([], some (.unexpChar '$')) ∧
    prop "$" = .error (.unexpChar '$') := by decide

/-- **C7** (confirmed).  `interpret` implements classical short-circuit
semantics: a missing atomic fails with a missing-variable error; `And`
with a false left operand, `Or` with a true left operand and `Implies`
with a false left operand never evaluate the right operand (a variable
missing only there does not fail); `Iff` evaluates both sides and fails
if either needs a missing variable; and under total assignments the four
connectives realize the classical truth tables. -/
theorem interpret_shortcircuit_truthtables :
    interpret (.Atomic "p") [] = .error (.missingVar "p") ∧
    interpret (.And (.Atomic "p") (.Atomic "q")) [("p", false)] = .ok false ∧
    interpret (.And (.Atomic "p") (.Atomic "q")) [("p", true)] =
      .error (.missingVar "q") ∧
    interpret (.Or (.Atomic "p") (.Atomic "q")) [("p", true)] = .ok true ∧
    interpret (.Or (.Atomic "p") (.Atomic "q")) [("p", false)] =
      .error (.missingVar "q") ∧
    interpret (.Implies (.Atomic "p") (.Atomic "q")) [("p", false)] = .ok true ∧
    interpret (.Implies (.Atomic "p") (.Atomic "q")) [("p", true)] =
      .error (.missingVar "q") ∧
    interpret (.Iff (.Atomic "p") (.Atomic "q")) [("p", false)] =
      .error (.missingVar "q") ∧
    interpret (.Iff (.Atomic "p") (.Atomic "q")) [("q", true)] =
      .error (.missingVar "p") ∧
    (∀ b c, interpret (.And (.Atomic "p") (.Atomic "q")) [("p", b), ("q", c)] =
      .ok (b && c)) ∧
    (∀ b c, interpret (.Or (.Atomic "p") (.Atomic "q")) [("p", b), ("q", c)] =
      .ok (b || c)) ∧
    (∀ b c, interpret (.Implies (.Atomic "p") (.Atomic "q")) [("p", b), ("q", c)] =
      .ok (!b || c)) ∧
    (∀ b c, interpret (.Iff (.Atomic "p") (.Atomic "q")) [("p", b), ("q", c)] =
      .ok (b == c)) := by decide

/-- **C9** (confirmed).  A `Proposition` never coerces to a boolean —
`bool(u)` raises `TypeError` for every formula `u` — and combining a
formula with any non-`Proposition` operand (booleans `True`/`False`
included) through `__and__`/`__or__` returns the silent `NotImplemented`
sentinel instead of raising. -/
theorem proposition_bool_and_or_protocol :
    (∀ u, pyBool u = .error .typeError) ∧
    (∀ u b, pyAnd u (.pybool b) = .notImplemented ∧
      pyOr u (.pybool b) = .notImplemented) ∧
    (∀ u, pyAnd u .obj = .notImplemented ∧ pyOr u .obj = .notImplemented) :=
  ⟨fun _ => rfl, fun _ _ => ⟨rfl, rfl⟩, fun _ => ⟨rfl, rfl⟩⟩

/-- **C8** (confirmed).  `props` splits its input on every comma with no
escaping (by definition it maps `prop` over the comma-split pieces), the
pieces are parsed independently left to right with one resulting formula
per piece in order when all parse, and the first piece that fails aborts
the whole call with that failure and no partial list; concretely,
`props "p,$,("` propagates the `$` error of the second piece (not the
later error of `"("`), and the naive split breaks `"(p,q)"`. -/
theorem props_comma_split_first_failure :
    (∀ text, props text = mapProps ((splitCommas text.data).map String.mk)) ∧
    (∀ (l : List String) (f : String → Proposition),
      (∀ s ∈ l, prop s = .ok (f s)) → mapProps l = .ok (l.map f)) ∧
    (∀ (pre : List String) (s : String) (post : List String) (e : Err),
      (∀ x ∈ pre, (prop x).isOk = true) → prop s = .error e →
      mapProps (pre ++ s :: post) = .error e) ∧
    props "p,q" = .ok [.Atomic "p", .Atomic "q"] ∧
    props "p,$,(" = .error (.unexpChar '$') ∧
    props "(p,q)" = .error .unexpEndOfStr := by
  refine ⟨fun _ => rfl, ?_, ?_, by decide, by decide, by decide⟩
  · intro l f h
    induction l with
    | nil => rfl
    | cons s ss ih =>
      have hs := h s (by simp)
      rw [List.map_cons]
      simp only [mapProps, hs, ih (fun x hx => h x (by simp [hx]))]
  · intro pre s post e hpre hs
    induction pre with
    | nil => simp [mapProps, hs]
    | cons x xs ih =>
      have hx := hpre x (by simp)
      rcases hpx : prop x with e' | p
      · rw [hpx] at hx; simp [Except.isOk, Except.toBool] at hx
      · have hrec := ih (fun y hy => hpre y (by simp [hy]))
        simp only [List.cons_append, mapProps, hpx]
        rw [show xs.append (s :: post) = xs ++ s :: post from rfl, hrec]

/-- Witness for **C8**: the general clauses instantiated at concrete
inputs — `["p", "q"]` all parse and map in order, and in
`["p", "$", "("]` the failure of the second piece is the one returned. -/
theorem props_comma_split_first_failure_witness :
    mapProps ["p", "q"] =
      .ok ((["p", "q"] : List String).map (fun s => Proposition.Atomic s)) ∧
    mapProps (["p"] ++ "$" :: ["("]) = .error (.unexpChar '$') := by
  obtain ⟨-, h2, h3, -⟩ := props_comma_split_first_failure
  exact ⟨h2 ["p", "q"] (fun s => .Atomic s) (by decide),
    h3 ["p"] "$" ["("] (.unexpChar '$') (by decide) (by decide)⟩

end Flogic
